import Mathlib

/-!
Verification development for the UtilLib dependency-graph task scheduler
(TaskGraph.h), the type-erased callable wrapper (Function.h) and the thread
pool (JobSystem.h), via a shallow embedding of their state and operations.

Modelling conventions:
* Task identifiers (64-bit hashes of names in the source) are `Nat`; the
  spec's invariant says distinct names give distinct identifiers, so we work
  with the identifiers directly.
* `void*` user-data pointers are opaque `Nat` values.
* `std::unordered_map` is an association list; iteration order of the C++
  container is unspecified, so theorems quantify over arbitrary list orders.
* `std::unordered_set` of dependencies is a `List Nat` (the set-insertions
  in the source only affect membership, which is all the model uses).
* `ExecuteNode` recurses without any termination guarantee in the source; the
  embedding takes an explicit fuel parameter, with `none` meaning the C++ run
  does not complete this way (fuel exhaustion or the undefined behaviour of
  `mGraph.operator[]` / `mTasks.operator[]` on a missing key, which in the
  source dereferences a null node or invokes a null callable).
* Executing a task is observed through a trace: the list of task hashes in
  the order their callables were invoked during one `ExecuteGraph` run.
-/

/-- A `Task` from TaskGraph.h (named `UTask` here because `Task` is taken by
the Lean core library): identifier hash, opaque user data pointer, and
the set of dependency hashes (`mDependencies`). -/
structure UTask where
  hash : Nat
  data : Nat
  deps : List Nat
deriving DecidableEq

/-- The compiled node (`TaskNodeHeader` plus trailing leaf array) that
`BuildGraph` allocates per task: `LeafCount` is implicit as `leaves.length`. -/
structure TaskNode where
  taskHash : Nat
  data : Nat
  leaves : List Nat
deriving DecidableEq

/-- The `TaskGraphManager` state: task table, compiled graph, entry ("top")
node list, and the set of already executed task hashes. -/
structure TaskGraphManager where
  mTasks : List UTask
  mGraph : List (Nat × TaskNode)
  mTopNodes : List TaskNode
  mExecutedTasks : List Nat
deriving DecidableEq

/-- A default-constructed `TaskGraphManager`. -/
def TaskGraphManager.init : TaskGraphManager := ⟨[], [], [], []⟩

/-- Lookup in the `mTasks` table (`std::unordered_map<uint64_t, Task>`). -/
def findTask : List UTask → Nat → Option UTask
  | [], _ => none
  | t :: ts, k => if t.hash = k then some t else findTask ts k

/-- Lookup in the `mGraph` table (`std::unordered_map<uint64_t, char*>`). -/
def lookupNode : List (Nat × TaskNode) → Nat → Option TaskNode
  | [], _ => none
  | p :: g, k => if p.1 = k then some p.2 else lookupNode g k

/-- `std::unordered_set::emplace`: insert if absent. -/
def insertSet (h : Nat) (s : List Nat) : List Nat := if h ∈ s then s else h :: s

/-- `TaskGraphManager::AddTask`: `mTasks.emplace(task.GetHash(), task)`.
`emplace` on `std::unordered_map` does nothing when the key is present. -/
def addTask (m : TaskGraphManager) (t : UTask) : TaskGraphManager :=
  if (findTask m.mTasks t.hash).isSome then m
  else { m with mTasks := m.mTasks ++ [t] }

/-- The node `BuildGraph` writes for one task: header taskHash and data plus
the leaf array copied from the task's dependency set. -/
def buildNode (t : UTask) : TaskNode := ⟨t.hash, t.data, t.deps⟩

/-- `mGraph.emplace(hash, node)`: insert only when the key is absent. -/
def emplaceNode (g : List (Nat × TaskNode)) (k : Nat) (nd : TaskNode) :
    List (Nat × TaskNode) :=
  if (lookupNode g k).isSome then g else g ++ [(k, nd)]

/-- `TaskGraphManager::BuildGraph`: for every task emplace a node into
`mGraph`, collect `allDependencies`, and append to `mTopNodes` every node of
`mGraph` whose hash is not in `allDependencies`.  The source never clears
`mGraph`, `mTopNodes` or `mExecutedTasks`.  The `#ifndef NDEBUG` cycle block
only constructs (and never throws) a `runtime_error` before falling off the
end of the function, so it has no observable effect and is not modelled. -/
def buildGraph (m : TaskGraphManager) : TaskGraphManager :=
  let allDependencies := m.mTasks.flatMap UTask.deps
  let graph1 := m.mTasks.foldl (fun g t => emplaceNode g t.hash (buildNode t)) m.mGraph
  let tops := (graph1.filter (fun p => !(decide (p.1 ∈ allDependencies)))).map Prod.snd
  { m with mGraph := graph1, mTopNodes := m.mTopNodes ++ tops }

/-- The leaf loop of `TaskGraphManager::ExecuteNode`: for each leaf not yet in
`mExecutedTasks`, look its node up in `mGraph` and visit it recursively
(`visit` is the recursive `ExecuteNode` call at the remaining fuel).  State is
`(mExecutedTasks, trace)`. A missing `mGraph` entry is the source's
`mGraph[leaf]` null-node dereference, modelled as `none`. -/
def execLeavesAux
    (visit : TaskNode → List Nat × List Nat → Option (List Nat × List Nat))
    (g : List (Nat × TaskNode)) :
    List Nat → List Nat × List Nat → Option (List Nat × List Nat)
  | [], st => some st
  | l :: ls, st =>
    if l ∈ st.1 then execLeavesAux visit g ls st
    else
      match lookupNode g l with
      | none => none
      | some nd =>
        match visit nd st with
        | none => none
        | some st1 => execLeavesAux visit g ls st1

/-- `TaskGraphManager::ExecuteNode`: run all not-yet-executed leaves
recursively, then unconditionally execute this node's task (looked up in
`mTasks`; a missing entry is the source's null-callable invocation, modelled
as `none`) and emplace its hash into `mExecutedTasks`. -/
def execNode (g : List (Nat × TaskNode)) (ts : List UTask) :
    Nat → TaskNode → List Nat × List Nat → Option (List Nat × List Nat)
  | 0, _, _ => none
  | fuel + 1, n, st =>
    match execLeavesAux (fun nd st1 => execNode g ts fuel nd st1) g n.leaves st with
    | none => none
    | some st1 =>
      match findTask ts n.taskHash with
      | none => none
      | some _t => some (insertSet n.taskHash st1.1, st1.2 ++ [n.taskHash])

/-- The loop of `TaskGraphManager::ExecuteGraph`: `ExecuteNode` on every top
node in order, with no executed-check at the top level. -/
def execTops (g : List (Nat × TaskNode)) (ts : List UTask) (fuel : Nat) :
    List TaskNode → List Nat × List Nat → Option (List Nat × List Nat)
  | [], st => some st
  | n :: ns, st =>
    match execNode g ts fuel n st with
    | none => none
    | some st1 => execTops g ts fuel ns st1

/-- `TaskGraphManager::ExecuteGraph`: run every top node; returns the updated
manager and the invocation trace of the run. -/
def executeGraph (fuel : Nat) (m : TaskGraphManager) :
    Option (TaskGraphManager × List Nat) :=
  match execTops m.mGraph m.mTasks fuel m.mTopNodes (m.mExecutedTasks, []) with
  | none => none
  | some (ex, tr) => some ({ m with mExecutedTasks := ex }, tr)

/-- Registering a list of tasks into a fresh manager. -/
def managerFor (ts : List UTask) : TaskGraphManager :=
  ts.foldl addTask TaskGraphManager.init

/-! ### Function.h: the type-erased callable `Function<R(Args...)>`

Pointers (`mMemberFunction`, `mFunction`, `mInstance`) are `Option Nat`,
`none` being `nullptr`. -/

/-- The data of `Function<R(Args...)>`. -/
structure FunctionModel where
  memberFunction : Option Nat
  function : Option Nat
  instancePtr : Option Nat
deriving DecidableEq

/-- `Function()`: the default constructor nulls all three pointers. -/
def FunctionModel.empty : FunctionModel := ⟨none, none, none⟩

/-- `Function(FunctionPtrStatic function)`: member pointer null, function set,
instance null. -/
def FunctionModel.ofStatic (f : Nat) : FunctionModel := ⟨none, some f, none⟩

/-- `Function::Bind(FunctionPtrStatic)`: sets `mFunction` and nulls
`mInstance`; `mMemberFunction` is left untouched. -/
def FunctionModel.bindStatic (fm : FunctionModel) (f : Nat) : FunctionModel :=
  { fm with function := some f, instancePtr := none }

/-- `Function::IsMember`: `mInstance != nullptr`. -/
def FunctionModel.IsMember (fm : FunctionModel) : Bool := fm.instancePtr.isSome

/-- `Function::IsStatic`: `mInstance == nullptr`. -/
def FunctionModel.IsStatic (fm : FunctionModel) : Bool := fm.instancePtr.isNone

/-- `Function::operator bool`: `mFunction != nullptr && mInstance != nullptr`. -/
def FunctionModel.toBool (fm : FunctionModel) : Bool :=
  fm.function.isSome && fm.instancePtr.isSome

/-! ### JobSystem.h: the worker pool

One `(Function, void*)` work item; the shared state is the deque `mJobs` and
the atomic counter `mNumPendingJobs`. -/

/-- The `JobData` struct of JobSystem.h. -/
structure JobData where
  funcId : Nat
  data : Nat
deriving DecidableEq

/-- The shared mutable state of a `JobSystem`. -/
structure JobSystemState where
  mJobs : List JobData
  mNumPendingJobs : Nat
deriving DecidableEq

/-- `JobSystem::AddJob`: append the job to the tail of `mJobs` under the lock.
It does not touch `mNumPendingJobs`. -/
def addJob (s : JobSystemState) (f : Nat) (d : Nat) : JobSystemState :=
  { s with mJobs := s.mJobs ++ [⟨f, d⟩] }

/-- `JobSystem::GetNumPendingJobs`. -/
def getNumPendingJobs (s : JobSystemState) : Nat := s.mNumPendingJobs

/-- The dequeue half of one worker-loop iteration: if `mJobs` is empty the
worker just spins; otherwise it increments `mNumPendingJobs`, takes the front
job and pops it (all under the lock). -/
def workerDequeue (s : JobSystemState) : JobSystemState :=
  match s.mJobs with
  | [] => s
  | _ :: rest => { mJobs := rest, mNumPendingJobs := s.mNumPendingJobs + 1 }

/-- The completion half of one worker-loop iteration: after running the job,
decrement `mNumPendingJobs`. -/
def workerComplete (s : JobSystemState) : JobSystemState :=
  { s with mNumPendingJobs := s.mNumPendingJobs - 1 }

/-- `JobSystem::Wait` spins while `mNumPendingJobs > 0`: it returns exactly in
the states where the counter is zero. -/
def waitReturns (s : JobSystemState) : Prop := s.mNumPendingJobs = 0

/-! ### Derived forms and specification predicates -/

/-- The graph produced by `BuildGraph` on a fresh manager holding `ts`. -/
def graphF (ts : List UTask) : List (Nat × TaskNode) :=
  ts.map (fun t => (t.hash, buildNode t))

/-- The top-node list produced by `BuildGraph` on a fresh manager: the nodes
whose hash occurs in no task's dependency list. -/
def topsF (ts : List UTask) : List TaskNode :=
  ((graphF ts).filter
    (fun p => !(decide (p.1 ∈ ts.flatMap UTask.deps)))).map Prod.snd

/-- All dependencies of the node stored for `h` are in `seen`. -/
def depsOk (g : List (Nat × TaskNode)) (seen : List Nat) (h : Nat) : Prop :=
  ∀ nd, lookupNode g h = some nd → ∀ d, d ∈ nd.leaves → d ∈ seen

/-- Every entry of the trace is preceded (or pre-dated by `seen`) by all the
dependencies of its node: the dependency-ordering invariant of a run. -/
def DepOrdered (g : List (Nat × TaskNode)) : List Nat → List Nat → Prop
  | _, [] => True
  | seen, h :: t => depsOk g seen h ∧ DepOrdered g (seen ++ [h]) t

/-- Well-formedness of one compiled graph against its task table: keys are
unique, each node records its own key, its task is registered, and every leaf
has a node and a strictly smaller rank (the acyclicity witness). -/
def GraphWF (g : List (Nat × TaskNode)) (ts : List UTask) (rank : Nat → Nat) :
    Prop :=
  (g.map Prod.fst).Nodup ∧
  ∀ k nd, lookupNode g k = some nd →
    nd.taskHash = k ∧ (findTask ts k).isSome = true ∧
    ∀ l, l ∈ nd.leaves → (lookupNode g l).isSome = true ∧ rank l < rank k

/-- One traversal step extends the executed set `ex` to `ex2` by exactly the
(fresh, duplicate-free) hashes listed in `d`. -/
def ExecDelta (ex d ex2 : List Nat) : Prop :=
  d.Nodup ∧ (∀ h, h ∈ d → h ∉ ex) ∧ (∀ h, h ∈ ex2 ↔ h ∈ ex ∨ h ∈ d)

/-- Run invariant: the executed set is the run's starting set `ex0` plus the
members of the trace so far, and the trace is dependency-ordered. -/
def TraceInv (g : List (Nat × TaskNode)) (ex0 ex tr : List Nat) : Prop :=
  (∀ h, h ∈ ex ↔ h ∈ ex0 ∨ h ∈ tr) ∧ DepOrdered g ex0 tr

/-- The full induction invariant for one `ExecuteNode` call on node `n` with
state `(ex, tr)` inside a run that started with executed set `ex0`:
the call succeeds, appends a duplicate-free block `d` of previously
unexecuted hashes (containing `n.taskHash`, all of rank at most `n`'s, and
all either `n` itself or leaves of the graph), leaves every leaf of `n`
executed, and preserves the trace invariant. -/
def NodeSpec (g : List (Nat × TaskNode)) (ts : List UTask) (rank : Nat → Nat)
    (fuel : Nat) : Prop :=
  ∀ (n : TaskNode) (ex tr ex0 : List Nat),
    lookupNode g n.taskHash = some n →
    n.taskHash ∉ ex →
    rank n.taskHash < fuel →
    TraceInv g ex0 ex tr →
    ∃ ex2 d, execNode g ts fuel n (ex, tr) = some (ex2, tr ++ d) ∧
      ExecDelta ex d ex2 ∧ n.taskHash ∈ d ∧
      (∀ h, h ∈ d → rank h ≤ rank n.taskHash) ∧
      (∀ h, h ∈ d → h = n.taskHash ∨ ∃ p, p ∈ g ∧ h ∈ p.2.leaves) ∧
      (∀ l, l ∈ n.leaves → l ∈ ex2) ∧
      TraceInv g ex0 ex2 (tr ++ d)

/-- The corresponding invariant for the leaf loop of `ExecuteNode` run over a
leaf list `ls` (the recursive visits happening at the same `fuel`). -/
def LeavesSpec (g : List (Nat × TaskNode)) (ts : List UTask) (rank : Nat → Nat)
    (fuel : Nat) : Prop :=
  ∀ (ls ex tr ex0 : List Nat),
    (∀ l, l ∈ ls → ∃ p, p ∈ g ∧ l ∈ p.2.leaves) →
    (∀ l, l ∈ ls → l ∉ ex → rank l < fuel) →
    TraceInv g ex0 ex tr →
    ∃ ex2 d,
      execLeavesAux (fun nd st1 => execNode g ts fuel nd st1) g ls (ex, tr)
        = some (ex2, tr ++ d) ∧
      ExecDelta ex d ex2 ∧
      (∀ l, l ∈ ls → l ∈ ex2) ∧
      (∀ h, h ∈ d → ∃ l, l ∈ ls ∧ rank h ≤ rank l) ∧
      (∀ h, h ∈ d → ∃ p, p ∈ g ∧ h ∈ p.2.leaves) ∧
      TraceInv g ex0 ex2 (tr ++ d)

/-! ### Concrete scenarios used by the claims -/

/-- The spec's §8 example, with hashes Start=0, Hello=1 (dep Start),
Goodbye=2, Exit=3 (deps Hello, Goodbye). -/
def exampleTasks : List UTask := [⟨0, 0, []⟩, ⟨1, 0, [0]⟩, ⟨2, 0, []⟩, ⟨3, 0, [1, 2]⟩]

/-- Build and fully run a single-task graph, then run it a second time with no
intervening build; the invocation trace of the second run. -/
def reRunTrace : Option (List Nat) :=
  match executeGraph 1 (buildGraph (managerFor [⟨0, 0, []⟩])) with
  | none => none
  | some (m2, _) => (executeGraph 1 m2).map Prod.snd

/-- Build and fully run a two-task graph (task 0 depends on task 1), rebuild
with the unchanged task set, run again; the trace of the post-rebuild run. -/
def rebuildRunTrace : Option (List Nat) :=
  let m1 := buildGraph (managerFor [⟨0, 0, [1]⟩, ⟨1, 0, []⟩])
  match executeGraph 2 m1 with
  | none => none
  | some (m2, _) =>
    match executeGraph 2 (buildGraph m2) with
    | none => none
    | some (_, tr2) => some tr2

/-- Register a single task that depends on the unregistered identifier 1 and
build: the manager state `BuildGraph` leaves behind. -/
def missingDepManager : TaskGraphManager := buildGraph (managerFor [⟨0, 0, [1]⟩])

/-! ### Association-table lemmas -/

theorem findTask_some {ts : List UTask} {k : Nat} {t : UTask}
    (h : findTask ts k = some t) : t ∈ ts ∧ t.hash = k := by
  induction ts with
  | nil => simp [findTask] at h
  | cons a ts ih =>
    by_cases hak : a.hash = k
    · simp [findTask, hak] at h
      subst h
      exact ⟨List.mem_cons_self _ _, hak⟩
    · simp [findTask, hak] at h
      rcases ih h with ⟨h1, h2⟩
      exact ⟨List.mem_cons_of_mem _ h1, h2⟩

theorem findTask_isSome {ts : List UTask} {k : Nat}
    (h : ∃ t, t ∈ ts ∧ t.hash = k) : (findTask ts k).isSome = true := by
  induction ts with
  | nil => simp at h
  | cons a ts ih =>
    by_cases hak : a.hash = k
    · simp [findTask, hak]
    · rcases h with ⟨t, ht, hk⟩
      rcases List.mem_cons.mp ht with rfl | hmem
      · exact absurd hk hak
      · simp only [findTask, hak, if_false]
        exact ih ⟨t, hmem, hk⟩

theorem findTask_mem_nodup {ts : List UTask} :
    (ts.map UTask.hash).Nodup → ∀ {t : UTask}, t ∈ ts →
      findTask ts t.hash = some t := by
  induction ts with
  | nil => intro _ t ht; cases ht
  | cons a ts ih =>
    intro hnd t ht
    have hnd2 : (∀ x ∈ ts, ¬x.hash = a.hash) ∧ (ts.map UTask.hash).Nodup := by
      simpa using hnd
    rcases List.mem_cons.mp ht with rfl | hmem
    · simp [findTask]
    · have hne : a.hash ≠ t.hash := fun he => hnd2.1 t hmem he.symm
      simp only [findTask, hne, if_false]
      exact ih hnd2.2 hmem

theorem findTask_append_some {a b : List UTask} {k : Nat} {t : UTask}
    (h : findTask a k = some t) : findTask (a ++ b) k = some t := by
  induction a with
  | nil => simp [findTask] at h
  | cons x a ih =>
    by_cases hx : x.hash = k
    · simp_all [findTask]
    · simp_all [findTask]

theorem findTask_append_none {a b : List UTask} {k : Nat}
    (h : findTask a k = none) : findTask (a ++ b) k = findTask b k := by
  induction a with
  | nil => simp [findTask]
  | cons x a ih =>
    by_cases hx : x.hash = k
    · simp [findTask, hx] at h
    · simp_all [findTask]

theorem lookupNode_some_mem {g : List (Nat × TaskNode)} {k : Nat} {nd : TaskNode}
    (h : lookupNode g k = some nd) : (k, nd) ∈ g := by
  induction g with
  | nil => simp [lookupNode] at h
  | cons p g ih =>
    by_cases hp : p.1 = k
    · simp [lookupNode, hp] at h
      subst h
      subst hp
      exact List.mem_cons_self _ _
    · simp only [lookupNode, hp, if_false] at h
      exact List.mem_cons_of_mem _ (ih h)

theorem lookupNode_mem_nodup {g : List (Nat × TaskNode)} :
    (g.map Prod.fst).Nodup → ∀ {k : Nat} {nd : TaskNode}, (k, nd) ∈ g →
      lookupNode g k = some nd := by
  induction g with
  | nil => intro _ k nd h; cases h
  | cons p g ih =>
    intro hnd k nd h
    have hnd2 : (∀ x, (p.1, x) ∉ g) ∧ (g.map Prod.fst).Nodup := by
      simpa using hnd
    rcases List.mem_cons.mp h with rfl | hmem
    · simp [lookupNode]
    · have hne : p.1 ≠ k := by
        intro he
        exact hnd2.1 nd (by rw [he]; exact hmem)
      simp only [lookupNode, hne, if_false]
      exact ih hnd2.2 hmem

theorem lookupNode_append_some {a b : List (Nat × TaskNode)} {k : Nat}
    {nd : TaskNode} (h : lookupNode a k = some nd) :
    lookupNode (a ++ b) k = some nd := by
  induction a with
  | nil => simp [lookupNode] at h
  | cons p a ih =>
    by_cases hp : p.1 = k
    · simp_all [lookupNode]
    · simp_all [lookupNode]

theorem lookupNode_append_none {a b : List (Nat × TaskNode)} {k : Nat}
    (h : lookupNode a k = none) : lookupNode (a ++ b) k = lookupNode b k := by
  induction a with
  | nil => simp [lookupNode]
  | cons p a ih =>
    by_cases hp : p.1 = k
    · simp [lookupNode, hp] at h
    · simp_all [lookupNode]

theorem lookupNode_graphF (ts : List UTask) (k : Nat) :
    lookupNode (graphF ts) k = Option.map buildNode (findTask ts k) := by
  induction ts with
  | nil => simp [graphF, lookupNode, findTask]
  | cons t ts ih =>
    by_cases ht : t.hash = k
    · simp [graphF, lookupNode, findTask, ht]
    · simp only [graphF, List.map_cons, lookupNode, findTask, ht, if_false]
      simpa [graphF] using ih

theorem mem_decomp {α : Type} {a : α} {l : List α} (h : a ∈ l) :
    ∃ s t, l = s ++ a :: t := by
  induction l with
  | nil => cases h
  | cons b l ih =>
    rcases List.mem_cons.mp h with rfl | h2
    · exact ⟨[], l, rfl⟩
    · obtain ⟨s, t, rfl⟩ := ih h2
      exact ⟨b :: s, t, rfl⟩

/-! ### Dependency-order invariant lemmas -/

theorem depsOk_mono {g : List (Nat × TaskNode)} {s s2 : List Nat} {h : Nat}
    (hsub : ∀ d, d ∈ s → d ∈ s2) (hd : depsOk g s h) : depsOk g s2 h :=
  fun nd hnd d hdm => hsub d (hd nd hnd d hdm)

theorem depOrdered_append (g : List (Nat × TaskNode)) :
    ∀ (tr seen : List Nat) (x : Nat), DepOrdered g seen tr →
      depsOk g (seen ++ tr) x → DepOrdered g seen (tr ++ [x]) := by
  intro tr
  induction tr with
  | nil =>
    intro seen x _ hx
    exact ⟨by simpa using hx, trivial⟩
  | cons h t ih =>
    intro seen x hord hx
    obtain ⟨h1, h2⟩ := hord
    refine ⟨h1, ih (seen ++ [h]) x h2 ?_⟩
    apply depsOk_mono _ hx
    intro d hd
    simp only [List.append_assoc, List.singleton_append]
    simpa using hd

theorem depOrdered_extract (g : List (Nat × TaskNode)) :
    ∀ (pre seen tr : List Nat) (h : Nat) (post : List Nat),
      DepOrdered g seen tr → tr = pre ++ h :: post →
      depsOk g (seen ++ pre) h := by
  intro pre
  induction pre with
  | nil =>
    intro seen tr h post hord he
    subst he
    simpa using hord.1
  | cons a pre ih =>
    intro seen tr h post hord he
    subst he
    obtain ⟨_, h2⟩ := hord
    have := ih (seen ++ [a]) (pre ++ h :: post) h post h2 rfl
    apply depsOk_mono _ this
    intro d hd
    simpa [List.append_assoc] using hd

/-! ### Characterizing BuildGraph on a fresh manager -/

theorem foldl_addTask (ts : List UTask) : ∀ (m : TaskGraphManager),
    (ts.map UTask.hash).Nodup →
    (∀ t, t ∈ ts → findTask m.mTasks t.hash = none) →
    ts.foldl addTask m = { m with mTasks := m.mTasks ++ ts } := by
  induction ts with
  | nil => intro m _ _; simp
  | cons a ts ih =>
    intro m hnd habs
    have hnd2 : (∀ x ∈ ts, ¬x.hash = a.hash) ∧ (ts.map UTask.hash).Nodup := by
      simpa using hnd
    have ha : findTask m.mTasks a.hash = none := habs a (List.mem_cons_self _ _)
    have hstep : addTask m a = { m with mTasks := m.mTasks ++ [a] } := by
      simp [addTask, ha]
    rw [List.foldl_cons, hstep,
      ih { m with mTasks := m.mTasks ++ [a] } hnd2.2 ?_]
    · simp
    · intro t ht
      have h1 : findTask (m.mTasks ++ [a]) t.hash = findTask [a] t.hash :=
        findTask_append_none (habs t (List.mem_cons_of_mem _ ht))
      have hne : ¬a.hash = t.hash := fun he => hnd2.1 t ht he.symm
      simp [h1, findTask, hne]

theorem managerFor_spec (ts : List UTask) (hnd : (ts.map UTask.hash).Nodup) :
    managerFor ts = ⟨ts, [], [], []⟩ := by
  rw [managerFor, foldl_addTask ts TaskGraphManager.init hnd]
  · rfl
  · intro t _; rfl

theorem foldl_emplaceNode (ts : List UTask) : ∀ (g : List (Nat × TaskNode)),
    (ts.map UTask.hash).Nodup →
    (∀ t, t ∈ ts → lookupNode g t.hash = none) →
    ts.foldl (fun g t => emplaceNode g t.hash (buildNode t)) g = g ++ graphF ts := by
  induction ts with
  | nil => intro g _ _; simp [graphF]
  | cons a ts ih =>
    intro g hnd habs
    have hnd2 : (∀ x ∈ ts, ¬x.hash = a.hash) ∧ (ts.map UTask.hash).Nodup := by
      simpa using hnd
    have ha : lookupNode g a.hash = none := habs a (List.mem_cons_self _ _)
    have hstep : emplaceNode g a.hash (buildNode a) = g ++ [(a.hash, buildNode a)] := by
      simp [emplaceNode, ha]
    rw [List.foldl_cons, hstep, ih (g ++ [(a.hash, buildNode a)]) hnd2.2 ?_]
    · simp [graphF]
    · intro t ht
      have h1 : lookupNode (g ++ [(a.hash, buildNode a)]) t.hash =
          lookupNode [(a.hash, buildNode a)] t.hash :=
        lookupNode_append_none (habs t (List.mem_cons_of_mem _ ht))
      have hne : ¬a.hash = t.hash := fun he => hnd2.1 t ht he.symm
      simp [h1, lookupNode, hne]

theorem buildGraph_managerFor (ts : List UTask)
    (hnd : (ts.map UTask.hash).Nodup) :
    buildGraph (managerFor ts) = ⟨ts, graphF ts, topsF ts, []⟩ := by
  rw [managerFor_spec ts hnd]
  have h2 : ts.foldl (fun g t => emplaceNode g t.hash (buildNode t))
      ([] : List (Nat × TaskNode)) = graphF ts := by
    rw [foldl_emplaceNode ts [] hnd (fun t _ => rfl)]
    simp
  simp [buildGraph, topsF, h2]

theorem graphF_keys (ts : List UTask) :
    (graphF ts).map Prod.fst = ts.map UTask.hash := by
  simp [graphF, List.map_map]

theorem graphF_wf (ts : List UTask) (rank : Nat → Nat)
    (hnd : (ts.map UTask.hash).Nodup)
    (hreg : ∀ t, t ∈ ts → ∀ d, d ∈ t.deps → ∃ t2, t2 ∈ ts ∧ t2.hash = d)
    (hacyc : ∀ t, t ∈ ts → ∀ d, d ∈ t.deps → rank d < rank t.hash) :
    GraphWF (graphF ts) ts rank := by
  refine ⟨by rw [graphF_keys]; exact hnd, ?_⟩
  intro k nd h
  rw [lookupNode_graphF] at h
  cases hf : findTask ts k with
  | none => rw [hf] at h; simp at h
  | some t =>
    rw [hf] at h
    simp at h
    obtain ⟨hmem, hhash⟩ := findTask_some hf
    subst h
    refine ⟨hhash, by simp [hf], ?_⟩
    intro l hl
    have hl2 : l ∈ t.deps := hl
    constructor
    · rw [lookupNode_graphF]
      obtain ⟨t2, ht2, hh2⟩ := hreg t hmem l hl2
      have : (findTask ts l).isSome = true := findTask_isSome ⟨t2, ht2, hh2⟩
      cases hg : findTask ts l with
      | none => rw [hg] at this; simp at this
      | some u => simp [hg]
    · have := hacyc t hmem l hl2
      rw [hhash] at this
      exact this

theorem topsF_mem {ts : List UTask} {n : TaskNode} :
    n ∈ topsF ts ↔
      ∃ t, t ∈ ts ∧ buildNode t = n ∧ t.hash ∉ ts.flatMap UTask.deps := by
  constructor
  · intro h
    obtain ⟨p, hp, hsnd⟩ := List.mem_map.mp h
    obtain ⟨hmem, hflt⟩ := List.mem_filter.mp hp
    obtain ⟨t, ht, hpt⟩ := List.mem_map.mp hmem
    refine ⟨t, ht, ?_, ?_⟩
    · rw [← hsnd, ← hpt]
    · have : ¬(p.1 ∈ ts.flatMap UTask.deps) := by
        simpa using hflt
      rw [← hpt] at this
      exact this
  · intro ⟨t, ht, hbn, hnd⟩
    apply List.mem_map.mpr
    refine ⟨(t.hash, buildNode t), ?_, hbn⟩
    apply List.mem_filter.mpr
    refine ⟨List.mem_map.mpr ⟨t, ht, rfl⟩, by simpa using hnd⟩

theorem graphF_leaves_sub_deps {ts : List UTask} {p : Nat × TaskNode}
    (hp : p ∈ graphF ts) {l : Nat} (hl : l ∈ p.2.leaves) :
    l ∈ ts.flatMap UTask.deps := by
  obtain ⟨t, ht, hpt⟩ := List.mem_map.mp hp
  apply List.mem_flatMap.mpr
  refine ⟨t, ht, ?_⟩
  have hlv : p.2.leaves = t.deps := by rw [← hpt]; rfl
  rw [hlv] at hl
  exact hl

/-! ### Soundness of the recursive traversal -/

theorem mem_insertSet {x h : Nat} {s : List Nat} :
    x ∈ insertSet h s ↔ x = h ∨ x ∈ s := by
  by_cases hm : h ∈ s
  · simp only [insertSet, if_pos hm]
    constructor
    · exact Or.inr
    · rintro (rfl | hx)
      · exact hm
      · exact hx
  · simp [insertSet, if_neg hm]

theorem execLeaves_sound (g : List (Nat × TaskNode)) (ts : List UTask)
    (rank : Nat → Nat) (fuel : Nat) (hwf : GraphWF g ts rank)
    (hP : NodeSpec g ts rank fuel) : LeavesSpec g ts rank fuel := by
  intro ls
  induction ls with
  | nil =>
    intro ex tr ex0 _ _ hinv
    refine ⟨ex, [], by simp [execLeavesAux], ⟨List.nodup_nil, ?_, ?_⟩, ?_, ?_, ?_, ?_⟩
    · intro h hh; cases hh
    · intro h; simp
    · intro l hl; cases hl
    · intro h hh; cases hh
    · intro h hh; cases hh
    · simpa using hinv
  | cons l ls ih =>
    intro ex tr ex0 hsrc hrk hinv
    by_cases hl : l ∈ ex
    · have hstep :
          execLeavesAux (fun nd st1 => execNode g ts fuel nd st1) g (l :: ls) (ex, tr)
            = execLeavesAux (fun nd st1 => execNode g ts fuel nd st1) g ls (ex, tr) := by
        simp [execLeavesAux, hl]
      obtain ⟨ex2, d, heq, hdel, hmem, hrk2, hsrc2, hinv2⟩ :=
        ih ex tr ex0 (fun x hx => hsrc x (List.mem_cons_of_mem _ hx))
          (fun x hx => hrk x (List.mem_cons_of_mem _ hx)) hinv
      refine ⟨ex2, d, by rw [hstep]; exact heq, hdel, ?_, ?_, hsrc2, hinv2⟩
      · intro x hx
        rcases List.mem_cons.mp hx with rfl | hx2
        · exact (hdel.2.2 x).mpr (Or.inl hl)
        · exact hmem x hx2
      · intro h hh
        obtain ⟨l2, hl2, hr⟩ := hrk2 h hh
        exact ⟨l2, List.mem_cons_of_mem _ hl2, hr⟩
    · have hrl : rank l < fuel := hrk l (List.mem_cons_self _ _) hl
      obtain ⟨p, hpg, hpl⟩ := hsrc l (List.mem_cons_self _ _)
      have hpk : lookupNode g p.1 = some p.2 := lookupNode_mem_nodup hwf.1 hpg
      have hlk0 := (hwf.2 p.1 p.2 hpk).2.2 l hpl
      obtain ⟨nd, hnd⟩ := Option.isSome_iff_exists.mp hlk0.1
      have hwfl := hwf.2 l nd hnd
      have hlknd : lookupNode g nd.taskHash = some nd := by rw [hwfl.1]; exact hnd
      have hnm : nd.taskHash ∉ ex := by rw [hwfl.1]; exact hl
      have hrknd : rank nd.taskHash < fuel := by rw [hwfl.1]; exact hrl
      obtain ⟨ex1, d1, heq1, hdel1, hin1, hrk1, hsrc1, hlv1, hinv1⟩ :=
        hP nd ex tr ex0 hlknd hnm hrknd hinv
      obtain ⟨ex2, d2, heq2, hdel2, hmem2, hrk2, hsrc2, hinv2⟩ :=
        ih ex1 (tr ++ d1) ex0
          (fun x hx => hsrc x (List.mem_cons_of_mem _ hx))
          (fun x hx hnx => hrk x (List.mem_cons_of_mem _ hx)
            (fun hxex => hnx ((hdel1.2.2 x).mpr (Or.inl hxex))))
          hinv1
      have hstep :
          execLeavesAux (fun nd1 st1 => execNode g ts fuel nd1 st1) g (l :: ls) (ex, tr)
            = execLeavesAux (fun nd1 st1 => execNode g ts fuel nd1 st1) g ls
                (ex1, tr ++ d1) := by
        simp only [execLeavesAux, hl, hnd, heq1, if_false, ite_false]
      have hsub1 : ∀ x, x ∈ ex1 → x ∈ ex2 := fun x hx => (hdel2.2.2 x).mpr (Or.inl hx)
      refine ⟨ex2, d1 ++ d2, ?_, ⟨?_, ?_, ?_⟩, ?_, ?_, ?_, ?_⟩
      · rw [hstep, heq2, List.append_assoc]
      · refine List.nodup_append.mpr ⟨hdel1.1, hdel2.1, ?_⟩
        intro x hx1 hx2
        exact hdel2.2.1 x hx2 ((hdel1.2.2 x).mpr (Or.inr hx1))
      · intro x hx
        rcases List.mem_append.mp hx with hx1 | hx2
        · exact hdel1.2.1 x hx1
        · intro hxex
          exact hdel2.2.1 x hx2 ((hdel1.2.2 x).mpr (Or.inl hxex))
      · intro x
        rw [(hdel2.2.2 x), (hdel1.2.2 x), List.mem_append]
        tauto
      · intro x hx
        rcases List.mem_cons.mp hx with rfl | hx2
        · have : x ∈ d1 := by rw [← hwfl.1]; exact hin1
          exact hsub1 x ((hdel1.2.2 x).mpr (Or.inr this))
        · exact hmem2 x hx2
      · intro h hh
        rcases List.mem_append.mp hh with hh1 | hh2
        · have := hrk1 h hh1
          rw [hwfl.1] at this
          exact ⟨l, List.mem_cons_self _ _, this⟩
        · obtain ⟨l2, hl2, hr⟩ := hrk2 h hh2
          exact ⟨l2, List.mem_cons_of_mem _ hl2, hr⟩
      · intro h hh
        rcases List.mem_append.mp hh with hh1 | hh2
        · rcases hsrc1 h hh1 with rfl | hex
          · exact ⟨p, hpg, by rw [hwfl.1]; exact hpl⟩
          · exact hex
        · exact hsrc2 h hh2
      · rw [← List.append_assoc]
        exact hinv2

theorem execNode_sound (g : List (Nat × TaskNode)) (ts : List UTask)
    (rank : Nat → Nat) (hwf : GraphWF g ts rank) :
    ∀ fuel, NodeSpec g ts rank fuel := by
  intro fuel
  induction fuel with
  | zero =>
    intro n ex tr ex0 _ _ hrk _
    exact absurd hrk (Nat.not_lt_zero _)
  | succ f ih =>
    have hQ := execLeaves_sound g ts rank f hwf ih
    intro n ex tr ex0 hlk hnex hrk hinv
    have hwfn := hwf.2 n.taskHash n hlk
    have hpg : (n.taskHash, n) ∈ g := lookupNode_some_mem hlk
    obtain ⟨ex1, d1, heq1, hdel1, hlv1mem, hrk1, hsrc1, hinv1⟩ :=
      hQ n.leaves ex tr ex0
        (fun l hl => ⟨(n.taskHash, n), hpg, hl⟩)
        (fun l hl _ => Nat.lt_of_lt_of_le (hwfn.2.2 l hl).2 (Nat.lt_succ_iff.mp hrk))
        hinv
    have hnotex1 : n.taskHash ∉ ex1 := by
      intro hmem
      rcases (hdel1.2.2 _).mp hmem with h1 | h1
      · exact hnex h1
      · obtain ⟨l, hl, hrl⟩ := hrk1 _ h1
        have := (hwfn.2.2 l hl).2
        omega
    obtain ⟨t, hft⟩ := Option.isSome_iff_exists.mp hwfn.2.1
    have hstep : execNode g ts (f + 1) n (ex, tr)
        = some (insertSet n.taskHash ex1, (tr ++ d1) ++ [n.taskHash]) := by
      simp only [execNode]
      rw [heq1]
      simp only []
      rw [hft]
    refine ⟨insertSet n.taskHash ex1, d1 ++ [n.taskHash], ?_, ⟨?_, ?_, ?_⟩, ?_, ?_, ?_, ?_, ?_, ?_⟩
    · rw [hstep, List.append_assoc]
    · refine List.nodup_append.mpr ⟨hdel1.1, List.nodup_singleton _, ?_⟩
      intro x hx1 hx2
      have hxe : x = n.taskHash := List.mem_singleton.mp hx2
      rw [hxe] at hx1
      exact hnotex1 ((hdel1.2.2 n.taskHash).mpr (Or.inr hx1))
    · intro x hx
      rcases List.mem_append.mp hx with hx1 | hx2
      · exact hdel1.2.1 x hx1
      · rcases List.mem_singleton.mp hx2 with rfl
        exact hnex
    · intro x
      rw [mem_insertSet, (hdel1.2.2 x), List.mem_append, List.mem_singleton]
      tauto
    · exact List.mem_append.mpr (Or.inr (List.mem_singleton.mpr rfl))
    · intro h hh
      rcases List.mem_append.mp hh with hh1 | hh2
      · obtain ⟨l, hl, hr⟩ := hrk1 h hh1
        exact Nat.le_of_lt (Nat.lt_of_le_of_lt hr (hwfn.2.2 l hl).2)
      · rcases List.mem_singleton.mp hh2 with rfl
        exact Nat.le_refl _
    · intro h hh
      rcases List.mem_append.mp hh with hh1 | hh2
      · exact Or.inr (hsrc1 h hh1)
      · rcases List.mem_singleton.mp hh2 with rfl
        exact Or.inl rfl
    · intro l hl
      exact mem_insertSet.mpr (Or.inr (hlv1mem l hl))
    · intro x
      rw [mem_insertSet, (hinv1.1 x)]
      simp only [← List.append_assoc, List.mem_append, List.mem_singleton]
      tauto
    · rw [← List.append_assoc]
      apply depOrdered_append g (tr ++ d1) ex0 n.taskHash hinv1.2
      intro nd2 hnd2 dd hdd
      rw [hlk] at hnd2
      cases hnd2
      have : dd ∈ ex1 := hlv1mem dd hdd
      rcases (hinv1.1 dd).mp this with h1 | h1
      · exact List.mem_append.mpr (Or.inl h1)
      · exact List.mem_append.mpr (Or.inr h1)

theorem execTops_sound (g : List (Nat × TaskNode)) (ts : List UTask)
    (rank : Nat → Nat) (hwf : GraphWF g ts rank) (fuel : Nat) :
    ∀ (tops : List TaskNode) (ex tr ex0 : List Nat),
      (∀ n, n ∈ tops → lookupNode g n.taskHash = some n) →
      (∀ n, n ∈ tops → ∀ p, p ∈ g → n.taskHash ∉ p.2.leaves) →
      ((tops.map TaskNode.taskHash).Nodup) →
      (∀ n, n ∈ tops → n.taskHash ∉ ex) →
      (∀ n, n ∈ tops → rank n.taskHash < fuel) →
      TraceInv g ex0 ex tr →
      ∃ ex2 d, execTops g ts fuel tops (ex, tr) = some (ex2, tr ++ d) ∧
        ExecDelta ex d ex2 ∧
        (∀ n, n ∈ tops → n.taskHash ∈ ex2) ∧
        (∀ h, h ∈ d →
          (∃ n, n ∈ tops ∧ h = n.taskHash) ∨ ∃ p, p ∈ g ∧ h ∈ p.2.leaves) ∧
        TraceInv g ex0 ex2 (tr ++ d) := by
  intro tops
  induction tops with
  | nil =>
    intro ex tr ex0 _ _ _ _ _ hinv
    refine ⟨ex, [], by simp [execTops], ⟨List.nodup_nil, ?_, ?_⟩, ?_, ?_, ?_⟩
    · intro h hh; cases hh
    · intro h; simp
    · intro n hn; cases hn
    · intro h hh; cases hh
    · simpa using hinv
  | cons n ns ih =>
    intro ex tr ex0 hlk hnl hnd hnex hrk hinv
    have hnd2 : (∀ x ∈ ns, ¬x.taskHash = n.taskHash) ∧
        (ns.map TaskNode.taskHash).Nodup := by simpa using hnd
    obtain ⟨ex1, d1, heq1, hdel1, hin1, hrk1, hsrc1, hlv1, hinv1⟩ :=
      execNode_sound g ts rank hwf fuel n ex tr ex0
        (hlk n (List.mem_cons_self _ _)) (hnex n (List.mem_cons_self _ _))
        (hrk n (List.mem_cons_self _ _)) hinv
    have hnotex1 : ∀ m, m ∈ ns → m.taskHash ∉ ex1 := by
      intro m hm hmem
      rcases (hdel1.2.2 _).mp hmem with h1 | h1
      · exact hnex m (List.mem_cons_of_mem _ hm) h1
      · rcases hsrc1 _ h1 with he | ⟨p, hp, hpl⟩
        · exact hnd2.1 m hm he
        · exact hnl m (List.mem_cons_of_mem _ hm) p hp hpl
    obtain ⟨ex2, d2, heq2, hdel2, hmem2, hsrc2, hinv2⟩ :=
      ih ex1 (tr ++ d1) ex0
        (fun m hm => hlk m (List.mem_cons_of_mem _ hm))
        (fun m hm => hnl m (List.mem_cons_of_mem _ hm))
        hnd2.2 hnotex1
        (fun m hm => hrk m (List.mem_cons_of_mem _ hm))
        hinv1
    have hstep : execTops g ts fuel (n :: ns) (ex, tr)
        = execTops g ts fuel ns (ex1, tr ++ d1) := by
      simp only [execTops, heq1]
    refine ⟨ex2, d1 ++ d2, ?_, ⟨?_, ?_, ?_⟩, ?_, ?_, ?_⟩
    · rw [hstep, heq2, List.append_assoc]
    · refine List.nodup_append.mpr ⟨hdel1.1, hdel2.1, ?_⟩
      intro x hx1 hx2
      exact hdel2.2.1 x hx2 ((hdel1.2.2 x).mpr (Or.inr hx1))
    · intro x hx
      rcases List.mem_append.mp hx with hx1 | hx2
      · exact hdel1.2.1 x hx1
      · intro hxex
        exact hdel2.2.1 x hx2 ((hdel1.2.2 x).mpr (Or.inl hxex))
    · intro x
      rw [(hdel2.2.2 x), (hdel1.2.2 x), List.mem_append]
      tauto
    · intro m hm
      rcases List.mem_cons.mp hm with rfl | hm2
      · exact (hdel2.2.2 _).mpr (Or.inl ((hdel1.2.2 _).mpr (Or.inr hin1)))
      · exact hmem2 m hm2
    · intro h hh
      rcases List.mem_append.mp hh with hh1 | hh2
      · rcases hsrc1 h hh1 with he | hex
        · exact Or.inl ⟨n, List.mem_cons_self _ _, he⟩
        · exact Or.inr hex
      · rcases hsrc2 h hh2 with ⟨m, hm, he⟩ | hex
        · exact Or.inl ⟨m, List.mem_cons_of_mem _ hm, he⟩
        · exact Or.inr hex
    · rw [← List.append_assoc]
      exact hinv2

theorem graphF_entry_taskHash {ts : List UTask} {p : Nat × TaskNode}
    (hp : p ∈ graphF ts) : p.2.taskHash = p.1 := by
  obtain ⟨t, _, hpt⟩ := List.mem_map.mp hp
  rw [← hpt]
  rfl

theorem topsF_taskHash_nodup (ts : List UTask)
    (hnd : (ts.map UTask.hash).Nodup) :
    ((topsF ts).map TaskNode.taskHash).Nodup := by
  have h1 : (topsF ts).map TaskNode.taskHash =
      ((graphF ts).filter
        (fun p => !(decide (p.1 ∈ ts.flatMap UTask.deps)))).map Prod.fst := by
    rw [topsF, List.map_map]
    apply List.map_congr_left
    intro p hp
    exact graphF_entry_taskHash (List.mem_of_mem_filter hp)
  rw [h1]
  have hsub : List.Sublist
      (((graphF ts).filter
        (fun p => !(decide (p.1 ∈ ts.flatMap UTask.deps)))).map Prod.fst)
      ((graphF ts).map Prod.fst) :=
    (List.filter_sublist _).map Prod.fst
  have h2 : ((graphF ts).map Prod.fst).Nodup := by rw [graphF_keys]; exact hnd
  exact h2.sublist hsub

theorem built_run (ts : List UTask) (rank : Nat → Nat) (fuel : Nat)
    (hnd : (ts.map UTask.hash).Nodup)
    (hreg : ∀ t, t ∈ ts → ∀ d, d ∈ t.deps → ∃ t2, t2 ∈ ts ∧ t2.hash = d)
    (hacyc : ∀ t, t ∈ ts → ∀ d, d ∈ t.deps → rank d < rank t.hash)
    (hfuel : ∀ t, t ∈ ts → rank t.hash < fuel) :
    ∃ ex2 tr,
      executeGraph fuel (buildGraph (managerFor ts)) =
        some (⟨ts, graphF ts, topsF ts, ex2⟩, tr) ∧
      tr.Nodup ∧ (∀ h, h ∈ ex2 ↔ h ∈ tr) ∧
      (∀ t, t ∈ ts → t.hash ∈ tr) ∧
      DepOrdered (graphF ts) [] tr := by
  have hwf := graphF_wf ts rank hnd hreg hacyc
  have htop1 : ∀ n, n ∈ topsF ts → lookupNode (graphF ts) n.taskHash = some n := by
    intro n hn
    obtain ⟨t, ht, hbn, hnotdep⟩ := topsF_mem.mp hn
    have hmemg : (t.hash, buildNode t) ∈ graphF ts := List.mem_map.mpr ⟨t, ht, rfl⟩
    have hl := lookupNode_mem_nodup hwf.1 hmemg
    rw [hbn] at hl
    have hth : n.taskHash = t.hash := by rw [← hbn]; rfl
    rw [hth]
    exact hl
  have htop2 : ∀ n, n ∈ topsF ts → ∀ p, p ∈ graphF ts → n.taskHash ∉ p.2.leaves := by
    intro n hn p hp hmem
    obtain ⟨t, ht, hbn, hnotdep⟩ := topsF_mem.mp hn
    have hth : n.taskHash = t.hash := by rw [← hbn]; rfl
    rw [hth] at hmem
    exact hnotdep (graphF_leaves_sub_deps hp hmem)
  have htop5 : ∀ n, n ∈ topsF ts → rank n.taskHash < fuel := by
    intro n hn
    obtain ⟨t, ht, hbn, _⟩ := topsF_mem.mp hn
    have hth : n.taskHash = t.hash := by rw [← hbn]; rfl
    rw [hth]
    exact hfuel t ht
  obtain ⟨ex2, d, heq, hdel, htopmem, hsrc, hinv⟩ :=
    execTops_sound (graphF ts) ts rank hwf fuel (topsF ts) [] [] []
      htop1 htop2 (topsF_taskHash_nodup ts hnd)
      (fun n _ => List.not_mem_nil _) htop5
      ⟨fun h => by simp, trivial⟩
  rw [List.nil_append] at heq
  have hordered : DepOrdered (graphF ts) [] d := by
    have h2 := hinv.2
    rwa [List.nil_append] at h2
  have hiff : ∀ h, h ∈ ex2 ↔ h ∈ d := by
    intro h
    rw [hdel.2.2 h]
    simp
  have hJ : ∀ h, h ∈ ex2 → ∀ nd, lookupNode (graphF ts) h = some nd →
      ∀ dd, dd ∈ nd.leaves → dd ∈ ex2 := by
    intro h hh nd hnd2 dd hdd
    have hmemtr : h ∈ d := (hiff h).mp hh
    obtain ⟨pre, post, hsplit⟩ := mem_decomp hmemtr
    have hok := depOrdered_extract (graphF ts) pre [] d h post hordered hsplit
    have hd1 : dd ∈ [] ++ pre := hok nd hnd2 dd hdd
    rw [List.nil_append] at hd1
    have hd2 : dd ∈ d := by
      rw [hsplit]
      exact List.mem_append.mpr (Or.inl hd1)
    exact (hiff dd).mpr hd2
  have main : ∀ cnt, ∀ t, t ∈ ts → fuel - rank t.hash ≤ cnt → t.hash ∈ ex2 := by
    intro cnt
    induction cnt with
    | zero =>
      intro t ht hle
      have := hfuel t ht
      omega
    | succ c ihc =>
      intro t ht hle
      by_cases hdep : t.hash ∈ ts.flatMap UTask.deps
      · obtain ⟨t2, ht2, hd2⟩ := List.mem_flatMap.mp hdep
        have hlt : rank t.hash < rank t2.hash := hacyc t2 ht2 t.hash hd2
        have hf2 : rank t2.hash < fuel := hfuel t2 ht2
        have h2 : t2.hash ∈ ex2 := ihc t2 ht2 (by omega)
        have hlk2 : lookupNode (graphF ts) t2.hash = some (buildNode t2) := by
          rw [lookupNode_graphF, findTask_mem_nodup hnd ht2]
          rfl
        exact hJ t2.hash h2 (buildNode t2) hlk2 t.hash hd2
      · have hmem : buildNode t ∈ topsF ts := topsF_mem.mpr ⟨t, ht, rfl, hdep⟩
        exact htopmem (buildNode t) hmem
  refine ⟨ex2, d, ?_, hdel.1, hiff, ?_, hordered⟩
  · rw [buildGraph_managerFor ts hnd]
    simp only [executeGraph]
    rw [heq]
  · intro t ht
    exact (hiff t.hash).mp (main fuel t ht (Nat.sub_le _ _))

/-! ### Re-running an already fully executed graph -/

theorem execLeavesAux_all_executed
    (visit : TaskNode → List Nat × List Nat → Option (List Nat × List Nat))
    (g : List (Nat × TaskNode)) :
    ∀ (ls ex tr : List Nat), (∀ l, l ∈ ls → l ∈ ex) →
      execLeavesAux visit g ls (ex, tr) = some (ex, tr) := by
  intro ls
  induction ls with
  | nil => intro ex tr _; rfl
  | cons l ls ih =>
    intro ex tr hall
    have hl : l ∈ ex := hall l (List.mem_cons_self _ _)
    simp only [execLeavesAux, hl, if_true, ite_true]
    exact ih ex tr (fun x hx => hall x (List.mem_cons_of_mem _ hx))

theorem execTops_all_executed (g : List (Nat × TaskNode)) (ts : List UTask)
    (fuel : Nat) (hfuel : 0 < fuel) :
    ∀ (tops : List TaskNode) (ex tr : List Nat),
      (∀ n, n ∈ tops → ∀ l, l ∈ n.leaves → l ∈ ex) →
      (∀ n, n ∈ tops → (findTask ts n.taskHash).isSome = true) →
      ∃ ex2, execTops g ts fuel tops (ex, tr)
          = some (ex2, tr ++ tops.map TaskNode.taskHash) ∧
        (∀ x, x ∈ ex → x ∈ ex2) := by
  intro tops
  induction tops with
  | nil => intro ex tr _ _; exact ⟨ex, by simp [execTops], fun x hx => hx⟩
  | cons n ns ih =>
    intro ex tr hlv hft
    obtain ⟨f, rfl⟩ : ∃ f, fuel = f + 1 := ⟨fuel - 1, by omega⟩
    have h1 : execLeavesAux (fun nd st1 => execNode g ts f nd st1) g n.leaves (ex, tr)
        = some (ex, tr) :=
      execLeavesAux_all_executed _ g n.leaves ex tr (hlv n (List.mem_cons_self _ _))
    obtain ⟨t, hft1⟩ := Option.isSome_iff_exists.mp (hft n (List.mem_cons_self _ _))
    have hnode : execNode g ts (f + 1) n (ex, tr)
        = some (insertSet n.taskHash ex, tr ++ [n.taskHash]) := by
      simp only [execNode, h1]
      rw [hft1]
    obtain ⟨ex2, heq2, hsub⟩ := ih (insertSet n.taskHash ex) (tr ++ [n.taskHash])
      (fun m hm l hl =>
        mem_insertSet.mpr (Or.inr (hlv m (List.mem_cons_of_mem _ hm) l hl)))
      (fun m hm => hft m (List.mem_cons_of_mem _ hm))
    refine ⟨ex2, ?_, fun x hx => hsub x (mem_insertSet.mpr (Or.inr hx))⟩
    simp only [execTops, hnode]
    rw [heq2]
    simp

/-! ### The claims -/

/-- Claim C1: for every acyclic dependency graph whose declared dependencies
are all registered (acyclicity given by a rank function that strictly
decreases from a task to each of its dependencies), executing the built graph
sequentially via `ExecuteGraph` invokes each task's callable exactly once
over the whole run: the run completes and its invocation trace lists every
registered task's hash exactly once. -/
theorem executeGraph_exactly_once (tasks : List UTask) (rank : Nat → Nat)
    (fuel : Nat)
    (hnd : (tasks.map UTask.hash).Nodup)
    (hreg : ∀ t, t ∈ tasks → ∀ d, d ∈ t.deps → ∃ t2, t2 ∈ tasks ∧ t2.hash = d)
    (hacyc : ∀ t, t ∈ tasks → ∀ d, d ∈ t.deps → rank d < rank t.hash)
    (hfuel : ∀ t, t ∈ tasks → rank t.hash < fuel) :
    ∃ m2 trace,
      executeGraph fuel (buildGraph (managerFor tasks)) = some (m2, trace) ∧
      ∀ t, t ∈ tasks → trace.count t.hash = 1 := by
  obtain ⟨ex2, tr, heq, hndp, _, hmem, _⟩ :=
    built_run tasks rank fuel hnd hreg hacyc hfuel
  exact ⟨_, tr, heq, fun t ht => List.count_eq_one_of_mem hndp (hmem t ht)⟩

/-- Witness for C1 at the diamond graph: A=0 depends on B=1 and C=2, which
both depend on D=3; the run succeeds and invokes each of the four tasks
exactly once. -/
theorem executeGraph_exactly_once_witness :
    ∃ m2 trace,
      executeGraph 3 (buildGraph (managerFor
        [⟨3, 0, []⟩, ⟨1, 0, [3]⟩, ⟨2, 0, [3]⟩, ⟨0, 0, [1, 2]⟩]))
        = some (m2, trace) ∧
      ∀ t, t ∈ [(⟨3, 0, []⟩ : UTask), ⟨1, 0, [3]⟩, ⟨2, 0, [3]⟩, ⟨0, 0, [1, 2]⟩] →
        trace.count t.hash = 1 :=
  executeGraph_exactly_once
    [⟨3, 0, []⟩, ⟨1, 0, [3]⟩, ⟨2, 0, [3]⟩, ⟨0, 0, [1, 2]⟩]
    (fun h => [2, 1, 1, 0].getD h 0) 3
    (by decide) (by decide) (by decide) (by decide)

/-- Claim C2 (code bug in the source): `BuildGraph` performs no
missing-dependency validation at all.  Registering a task that depends on the
unregistered identifier 1 and building does not fail: it installs the node and
the entry list (new graph state becomes visible), there is no node for the
missing identifier, and every later `ExecuteGraph` run aborts at the source's
`mGraph[leaf]` null-node dereference (modelled as `none`) instead of a
`MissingDependency` build error. -/
theorem buildGraph_missing_dependency_unchecked :
    missingDepManager.mGraph = [(0, ⟨0, 0, [1]⟩)] ∧
    missingDepManager.mTopNodes = [⟨0, 0, [1]⟩] ∧
    lookupNode missingDepManager.mGraph 1 = none ∧
    ∀ fuel, executeGraph fuel missingDepManager = none := by
  refine ⟨by decide, by decide, by decide, ?_⟩
  intro fuel
  cases fuel with
  | zero => rfl
  | succ f => rfl

/-- Claim C3 counterexample: after a full run of a built single-task graph,
executing again without rebuilding is not a no-op: the second run re-invokes
the entry task (trace `[0]`), not zero tasks (trace `[]`). -/
theorem executeGraph_rerun_not_noop_cx :
    reRunTrace = some [0] ∧ reRunTrace ≠ some [] := by decide

/-- Claim C3 (amended): executing a built graph a second time without an
intervening build performs exactly one additional invocation per entry node
(the top nodes' callables re-run, in entry-list order), and no additional
invocations of non-entry tasks — `ExecuteNode` checks `mExecutedTasks` only
for leaves, never for the node it was called on. -/
theorem executeGraph_rerun_tops_only (m : TaskGraphManager) (fuel : Nat)
    (hfuel : 0 < fuel)
    (hleaves : ∀ n, n ∈ m.mTopNodes → ∀ l, l ∈ n.leaves → l ∈ m.mExecutedTasks)
    (htasks : ∀ n, n ∈ m.mTopNodes → (findTask m.mTasks n.taskHash).isSome = true) :
    ∃ m2, executeGraph fuel m = some (m2, m.mTopNodes.map TaskNode.taskHash) := by
  obtain ⟨ex2, heq, _⟩ := execTops_all_executed m.mGraph m.mTasks fuel hfuel
    m.mTopNodes m.mExecutedTasks [] hleaves htasks
  rw [List.nil_append] at heq
  refine ⟨{ m with mExecutedTasks := ex2 }, ?_⟩
  simp only [executeGraph]
  rw [heq]

/-- Witness for the amended C3: the state after building and fully running a
single-task graph; the second run invokes exactly the entry task once. -/
theorem executeGraph_rerun_tops_only_witness :
    ∃ m2, executeGraph 1
        (⟨[⟨0, 0, []⟩], [(0, ⟨0, 0, []⟩)], [⟨0, 0, []⟩], [0]⟩ : TaskGraphManager)
      = some (m2, [0]) :=
  executeGraph_rerun_tops_only
    ⟨[⟨0, 0, []⟩], [(0, ⟨0, 0, []⟩)], [⟨0, 0, []⟩], [0]⟩ 1
    (by decide) (by decide) (by decide)

/-- Claim C4 (code bug in the source): `BuildGraph` never resets execution
state: it clears neither `mExecutedTasks` nor `mTopNodes` (and `emplace`
keeps the old nodes), so after a full run of the two-task graph (0 depends
on 1, first-run trace `[1, 0]`), rebuilding with the unchanged task set and
running again invokes the entry task twice and the dependency zero times
(trace `[0, 0]`) instead of every task exactly once more. -/
theorem buildGraph_no_reset_bug :
    rebuildRunTrace = some [0, 0] ∧
    rebuildRunTrace ≠ some [1, 0] ∧ rebuildRunTrace ≠ some [0, 1] := by decide

/-- Claim C5: in every sequential run of a freshly built, fully registered,
acyclic graph, each task's dependencies are invoked strictly before the task
itself: the trace splits as `pre ++ task :: post` with every dependency in
`pre`. -/
theorem executeGraph_dependency_order (tasks : List UTask) (rank : Nat → Nat)
    (fuel : Nat)
    (hnd : (tasks.map UTask.hash).Nodup)
    (hreg : ∀ t, t ∈ tasks → ∀ d, d ∈ t.deps → ∃ t2, t2 ∈ tasks ∧ t2.hash = d)
    (hacyc : ∀ t, t ∈ tasks → ∀ d, d ∈ t.deps → rank d < rank t.hash)
    (hfuel : ∀ t, t ∈ tasks → rank t.hash < fuel) :
    ∃ m2 trace,
      executeGraph fuel (buildGraph (managerFor tasks)) = some (m2, trace) ∧
      ∀ t, t ∈ tasks → ∀ d, d ∈ t.deps →
        ∃ pre post, trace = pre ++ t.hash :: post ∧ d ∈ pre := by
  obtain ⟨ex2, tr, heq, _, _, hmem, hord⟩ :=
    built_run tasks rank fuel hnd hreg hacyc hfuel
  refine ⟨_, tr, heq, ?_⟩
  intro t ht dd hdd
  obtain ⟨pre, post, hsplit⟩ := mem_decomp (hmem t ht)
  have hok := depOrdered_extract (graphF tasks) pre [] tr t.hash post hord hsplit
  have hlk : lookupNode (graphF tasks) t.hash = some (buildNode t) := by
    rw [lookupNode_graphF, findTask_mem_nodup hnd ht]
    rfl
  have hd1 : dd ∈ [] ++ pre := hok (buildNode t) hlk dd hdd
  rw [List.nil_append] at hd1
  exact ⟨pre, post, hsplit, hd1⟩

/-- Witness for C5 at the chain 0 depends on 1: task 1 appears in the trace
before task 0. -/
theorem executeGraph_dependency_order_witness :
    ∃ m2 trace,
      executeGraph 2 (buildGraph (managerFor [⟨0, 0, [1]⟩, ⟨1, 0, []⟩]))
        = some (m2, trace) ∧
      ∀ t, t ∈ [(⟨0, 0, [1]⟩ : UTask), ⟨1, 0, []⟩] → ∀ d, d ∈ t.deps →
        ∃ pre post, trace = pre ++ t.hash :: post ∧ d ∈ pre :=
  executeGraph_dependency_order [⟨0, 0, [1]⟩, ⟨1, 0, []⟩]
    (fun h => [1, 0].getD h 0) 2
    (by decide) (by decide) (by decide) (by decide)

/-- Claim C6: after a fresh build, the entry ("top") node list contains
exactly the registered identifiers that appear in no task's dependency
list. -/
theorem buildGraph_entry_nodes (tasks : List UTask)
    (hnd : (tasks.map UTask.hash).Nodup) :
    ∀ h, (∃ n, n ∈ (buildGraph (managerFor tasks)).mTopNodes ∧ n.taskHash = h) ↔
      ((∃ t, t ∈ tasks ∧ t.hash = h) ∧ ∀ t2, t2 ∈ tasks → h ∉ t2.deps) := by
  intro h
  rw [buildGraph_managerFor tasks hnd]
  show (∃ n, n ∈ topsF tasks ∧ n.taskHash = h) ↔ _
  constructor
  · rintro ⟨n, hn, rfl⟩
    obtain ⟨t, ht, hbn, hnd2⟩ := topsF_mem.mp hn
    have hth : n.taskHash = t.hash := by rw [← hbn]; rfl
    refine ⟨⟨t, ht, hth.symm⟩, ?_⟩
    intro t2 ht2 hmem
    rw [hth] at hmem
    exact hnd2 (List.mem_flatMap.mpr ⟨t2, ht2, hmem⟩)
  · rintro ⟨⟨t, ht, rfl⟩, hnodep⟩
    refine ⟨buildNode t, topsF_mem.mpr ⟨t, ht, rfl, ?_⟩, rfl⟩
    intro hmem
    obtain ⟨t2, ht2, hd⟩ := List.mem_flatMap.mp hmem
    exact hnodep t2 ht2 hd

/-- Witness for C6 at the spec's example (Start=0, Hello=1 dep Start,
Goodbye=2, Exit=3 deps Hello and Goodbye): the characterization holds at
identifier 3, and the computed entry-node list is exactly the Exit node. -/
theorem buildGraph_entry_nodes_witness :
    ((∃ n, n ∈ (buildGraph (managerFor exampleTasks)).mTopNodes ∧ n.taskHash = 3) ↔
      ((∃ t, t ∈ exampleTasks ∧ t.hash = 3) ∧
        ∀ t2, t2 ∈ exampleTasks → 3 ∉ t2.deps)) ∧
    (buildGraph (managerFor exampleTasks)).mTopNodes.map TaskNode.taskHash = [3] :=
  ⟨buildGraph_entry_nodes exampleTasks (by decide) 3, by decide⟩

/-- Claim C7 counterexample: `AddTask` uses `unordered_map::emplace`, which
keeps the existing entry: after adding two distinct tasks with identifier 0,
lookup yields the first task, not the second. -/
theorem addTask_overwrite_cx :
    findTask (addTask (addTask TaskGraphManager.init ⟨0, 1, []⟩) ⟨0, 2, []⟩).mTasks 0
      = some ⟨0, 1, []⟩ ∧
    some (⟨0, 1, []⟩ : UTask) ≠ some (⟨0, 2, []⟩ : UTask) := by decide

/-- Claim C7 (amended): `AddTask` on an identifier that already exists in the
pending table is a no-op (first-write-wins): the manager is unchanged and a
subsequent lookup still yields the earlier task. -/
theorem addTask_first_write_wins (m : TaskGraphManager) (t t2 : UTask)
    (h : findTask m.mTasks t.hash = some t2) :
    addTask m t = m ∧ findTask (addTask m t).mTasks t.hash = some t2 := by
  have hs : (findTask m.mTasks t.hash).isSome = true := by rw [h]; rfl
  constructor
  · simp [addTask, hs]
  · simp [addTask, hs, h]

/-- Witness for the amended C7 at two concrete tasks with identifier 0. -/
theorem addTask_first_write_wins_witness :
    addTask (addTask TaskGraphManager.init ⟨0, 1, []⟩) ⟨0, 2, []⟩
        = addTask TaskGraphManager.init ⟨0, 1, []⟩ ∧
      findTask (addTask (addTask TaskGraphManager.init ⟨0, 1, []⟩) ⟨0, 2, []⟩).mTasks
          (⟨0, 2, []⟩ : UTask).hash
        = some ⟨0, 1, []⟩ :=
  addTask_first_write_wins (addTask TaskGraphManager.init ⟨0, 1, []⟩)
    ⟨0, 2, []⟩ ⟨0, 1, []⟩ (by decide)

/-- Claim C8 (code bug in the source): `Function::operator bool` requires both
`mFunction` and `mInstance` to be non-null, so a validly bound free function
— which has a function pointer but no instance — converts to `false`,
contradicting the claim (and the operator's own documentation and inline
comment, which say the static case is handled). -/
theorem functionModel_static_bool_bug :
    (FunctionModel.ofStatic 0).toBool = false ∧
    (FunctionModel.empty.bindStatic 0).toBool = false ∧
    (FunctionModel.ofStatic 0).function.isSome = true := by decide

/-- Claim C9 counterexample: immediately after `AddJob` returns, the pending
count is unchanged (0, not 1), and `Wait` would return at once even though a
job is queued. -/
theorem addJob_count_cx :
    getNumPendingJobs (addJob ⟨[], 0⟩ 0 0) = 0 ∧
    getNumPendingJobs (addJob ⟨[], 0⟩ 0 0) ≠ getNumPendingJobs ⟨[], 0⟩ + 1 ∧
    waitReturns (addJob ⟨[], 0⟩ 0 0) ∧
    (addJob ⟨[], 0⟩ 0 0).mJobs ≠ [] := by
  refine ⟨rfl, by decide, rfl, by decide⟩

/-- Claim C9 (amended): `AddJob` appends to the queue and leaves
`mNumPendingJobs` unchanged; the counter is incremented only when a worker
dequeues a job and decremented after completing it, and `Wait` returns
exactly when that counter is zero — which can happen while jobs are still
queued but unstarted. -/
theorem addJob_count_behavior (s : JobSystemState) (f d : Nat) :
    getNumPendingJobs (addJob s f d) = getNumPendingJobs s ∧
    (addJob s f d).mJobs = s.mJobs ++ [⟨f, d⟩] ∧
    (s.mJobs ≠ [] →
      getNumPendingJobs (workerDequeue s) = getNumPendingJobs s + 1) ∧
    getNumPendingJobs (workerComplete s) = getNumPendingJobs s - 1 ∧
    (waitReturns s ↔ getNumPendingJobs s = 0) := by
  refine ⟨rfl, rfl, ?_, rfl, Iff.rfl⟩
  intro hne
  cases hj : s.mJobs with
  | nil => exact absurd hj hne
  | cons a rest => simp [workerDequeue, hj, getNumPendingJobs]

/-- Witness for the amended C9 at a concrete one-job state. -/
theorem addJob_count_behavior_witness :
    getNumPendingJobs (addJob ⟨[⟨1, 1⟩], 5⟩ 2 3) = getNumPendingJobs ⟨[⟨1, 1⟩], 5⟩ ∧
    (addJob ⟨[⟨1, 1⟩], 5⟩ 2 3).mJobs = [⟨1, 1⟩] ++ [⟨2, 3⟩] ∧
    ((⟨[⟨1, 1⟩], 5⟩ : JobSystemState).mJobs ≠ [] →
      getNumPendingJobs (workerDequeue ⟨[⟨1, 1⟩], 5⟩) =
        getNumPendingJobs ⟨[⟨1, 1⟩], 5⟩ + 1) ∧
    getNumPendingJobs (workerComplete ⟨[⟨1, 1⟩], 5⟩) =
      getNumPendingJobs ⟨[⟨1, 1⟩], 5⟩ - 1 ∧
    (waitReturns ⟨[⟨1, 1⟩], 5⟩ ↔ getNumPendingJobs ⟨[⟨1, 1⟩], 5⟩ = 0) :=
  addJob_count_behavior ⟨[⟨1, 1⟩], 5⟩ 2 3

/-- Claim C10: a default-constructed `Function` reports `IsStatic` true and
`IsMember` false, its boolean conversion is false, and the two predicates are
mutually exclusive in every state. -/
theorem functionModel_default_state :
    FunctionModel.empty.IsStatic = true ∧
    FunctionModel.empty.IsMember = false ∧
    FunctionModel.empty.toBool = false ∧
    ∀ fm : FunctionModel, ¬(fm.IsStatic = true ∧ fm.IsMember = true) := by
  refine ⟨rfl, rfl, rfl, ?_⟩
  rintro fm ⟨h1, h2⟩
  cases hi : fm.instancePtr with
  | none =>
    rw [FunctionModel.IsMember, hi] at h2
    cases h2
  | some v =>
    rw [FunctionModel.IsStatic, hi] at h1
    cases h1
